import Mathlib

/-!
# ADPPM image pipeline (`server.go`)

A shallow embedding of `processImageFromBase64`, `cropToSquare` and
`applyCircleMask`, together with the parts of Go's `image`, `image/draw`
and `image/color` packages these functions call.

Conventions of the embedding

* Go `int` values are `Int` (coordinates) or `Nat` (the JPEG quality, which
  is only decremented under the guard `quality > 10`).
* An `image.Image` is observed through `Bounds()` and through the colour of
  `At(x, y)` in the RGBA colour model, which is all `draw.Draw` into an
  `*image.RGBA` reads of its source.
* `float64` values in `applyCircleMask` are rationals: every intermediate
  value there is an integer multiple of `1/4` of magnitude far below `2^53`
  for any image that fits in memory, so each `float64` operation is exact.
* Library calls whose result depends on codec internals
  (`base64.StdEncoding.DecodeString`, `image.Decode`, `jpeg.Encode`) are
  fields of a `Codecs` record.
* `serverCodecs` is the record of the program itself: its `image.Decode` is
  Go's format sniffing over the two decoders that server.go:8-12 registers,
  `image/jpeg` and `image/png`.
-/

namespace ADPPM

/-! ## `image` geometry -/

/-- Go `image.Point`. -/
structure Point where
  X : Int
  Y : Int
deriving DecidableEq, Repr

/-- Go `image.Rectangle`: contains the points with `Min.X ≤ x < Max.X` and
`Min.Y ≤ y < Max.Y`. -/
structure Rectangle where
  Min : Point
  Max : Point
deriving DecidableEq, Repr

/-- Go `Point.Sub`. -/
def Point.Sub (p q : Point) : Point := ⟨p.X - q.X, p.Y - q.Y⟩

/-- Go `Rectangle.Dx`: the width. -/
def Rectangle.Dx (r : Rectangle) : Int := r.Max.X - r.Min.X

/-- Go `Rectangle.Dy`: the height. -/
def Rectangle.Dy (r : Rectangle) : Int := r.Max.Y - r.Min.Y

/-- Go `Rectangle.Empty`. -/
def Rectangle.Empty (r : Rectangle) : Bool :=
  decide (r.Min.X ≥ r.Max.X) || decide (r.Min.Y ≥ r.Max.Y)

/-- Go `Rectangle.Add`: translation by `p`. -/
def Rectangle.Add (r : Rectangle) (p : Point) : Rectangle :=
  ⟨⟨r.Min.X + p.X, r.Min.Y + p.Y⟩, ⟨r.Max.X + p.X, r.Max.Y + p.Y⟩⟩

/-- Go `image.ZR`, the zero rectangle. -/
def ZR : Rectangle := ⟨⟨0, 0⟩, ⟨0, 0⟩⟩

/-- Go `Rectangle.Intersect`: the largest rectangle contained in both, or
the zero rectangle when that is empty. -/
def Rectangle.Intersect (r s : Rectangle) : Rectangle :=
  let r1 : Rectangle :=
    ⟨⟨if r.Min.X < s.Min.X then s.Min.X else r.Min.X,
      if r.Min.Y < s.Min.Y then s.Min.Y else r.Min.Y⟩,
     ⟨if r.Max.X > s.Max.X then s.Max.X else r.Max.X,
      if r.Max.Y > s.Max.Y then s.Max.Y else r.Max.Y⟩⟩
  if r1.Empty then ZR else r1

/-- Go `Point.In`. -/
def Point.In (p : Point) (r : Rectangle) : Bool :=
  decide (r.Min.X ≤ p.X) && decide (p.X < r.Max.X) &&
    decide (r.Min.Y ≤ p.Y) && decide (p.Y < r.Max.Y)

/-- Go `image.Rect`: the rectangle with the given corners, swapping
coordinates so that the result is well formed. -/
def Rect (x0 y0 x1 y1 : Int) : Rectangle :=
  let (x0, x1) := if x0 > x1 then (x1, x0) else (x0, x1)
  let (y0, y1) := if y0 > y1 then (y1, y0) else (y0, y1)
  ⟨⟨x0, y0⟩, ⟨x1, y1⟩⟩

/-! ## Colours and images -/

/-- Go `color.RGBA`; each channel is a `uint8` value. -/
structure RGBA where
  R : Nat
  G : Nat
  B : Nat
  A : Nat
deriving DecidableEq, Repr

/-- An `image.Image`, observed through `Bounds()` and the RGBA-model colour
of `At(x, y)`. -/
structure Image where
  Bounds : Rectangle
  At : Int → Int → RGBA

/-- Go `image.NewRGBA`: every pixel is the zero colour. -/
def NewRGBA (r : Rectangle) : Image := ⟨r, fun _ _ => ⟨0, 0, 0, 0⟩⟩

/-- Go `(*image.RGBA).Set`: a write outside the bounds is ignored. -/
def Image.Set (p : Image) (x y : Int) (c : RGBA) : Image :=
  if !(Point.In ⟨x, y⟩ p.Bounds) then p
  else ⟨p.Bounds, fun x' y' => if x' = x ∧ y' = y then c else p.At x' y'⟩

/-- Go `draw.Draw(dst, r, src, sp, draw.Src)`: after clipping `r` to the
bounds of `dst` and to the translated bounds of `src`, every pixel of `r` in
`dst` becomes the pixel of `src` at the corresponding offset from `sp`. -/
def Draw (dst : Image) (r : Rectangle) (src : Image) (sp : Point) : Image :=
  let orig := r.Min
  let r := r.Intersect dst.Bounds
  let r := r.Intersect (src.Bounds.Add (orig.Sub sp))
  let dx := r.Min.X - orig.X
  let dy := r.Min.Y - orig.Y
  let sp : Point := ⟨sp.X + dx, sp.Y + dy⟩
  if r.Empty then dst
  else
    ⟨dst.Bounds, fun x y =>
      if Point.In ⟨x, y⟩ r then src.At (sp.X + (x - r.Min.X)) (sp.Y + (y - r.Min.Y))
      else dst.At x y⟩

/-! ## `cropToSquare` -/

/-- `cropToSquare` (server.go:345-368). -/
def cropToSquare (img : Image) : Image :=
  let bounds := img.Bounds
  let width := bounds.Dx
  let height := bounds.Dy
  let size := if height < width then height else width
  let x0 := Int.tdiv (width - size) 2
  let y0 := Int.tdiv (height - size) 2
  let dst := NewRGBA (Rect 0 0 size size)
  Draw dst dst.Bounds img ⟨x0 + bounds.Min.X, y0 + bounds.Min.Y⟩

/-! ## `applyCircleMask` -/

/-- The guard of the inner loop of `applyCircleMask` (server.go:387-399):
whether the centre of pixel `(x, y)` lies outside the circle. The `float64`
values of the source are rationals here; for `w, h ≤ 2^26` every operation
below is exact in `float64`, so the two computations agree. -/
def outsideCircle (w h x y : Int) : Bool :=
  let cx : ℚ := (w : ℚ) / 2
  let cy : ℚ := (h : ℚ) / 2
  let radius : ℚ := (w : ℚ) / 2
  let dx : ℚ := (x : ℚ) - cx + 0.5
  let dy : ℚ := (y : ℚ) - cy + 0.5
  let distSq : ℚ := dx * dx + dy * dy
  decide (distSq > radius * radius)

/-- The colour `color.RGBA{255, 255, 255, 255}`. -/
def white : RGBA := ⟨255, 255, 255, 255⟩

/-- The inner loop `for x := 0; x < w; x++` of `applyCircleMask`. -/
def maskRow (w h : Int) (y : Int) (dst : Image) : Image :=
  (List.range w.toNat).foldl
    (fun (dst : Image) (x : Nat) => if outsideCircle w h x y then dst.Set x y white else dst) dst

/-- `applyCircleMask` (server.go:370-406). -/
def applyCircleMask (img : Image) : Image :=
  let bounds := img.Bounds
  let w := bounds.Dx
  let h := bounds.Dy
  let dst := NewRGBA bounds
  let dst := Draw dst bounds img bounds.Min
  (List.range h.toNat).foldl (fun (dst : Image) (y : Nat) => maskRow w h y dst) dst

/-! ## The pipeline -/

/-- A Go byte slice. -/
abbrev Bytes := List Nat

/-- Go `strings.Index(s, sep)` for a one-character separator: the position
of its first occurrence, or `-1`. The separator used by the pipeline is the
comma, a single byte that occurs in no multi-byte UTF-8 sequence, so slicing
at the position counted in characters and in bytes gives the same suffix. -/
def stringsIndex : List Char → Char → Int
  | [], _ => -1
  | c :: cs, sep =>
    if c = sep then 0
    else
      let i := stringsIndex cs sep
      if i = -1 then -1 else i + 1

/-- Go `strings.ToLower`, on the ASCII letters (the only upper-case
characters whose lower-case form occurs in an allowed format name). -/
def ToLower (s : String) : String := ⟨s.data.map Char.toLower⟩

/-- The map `allowedFormats` (server.go:298-302); a key that is absent reads
as `false`. -/
def allowedFormats (format : String) : Bool :=
  format = "jpeg" || format = "jpg" || format = "png"

/-- `ProcessingOptions` (server.go:43-46). -/
structure ProcessingOptions where
  Crop : Bool
  Round : Bool
deriving DecidableEq, Repr

/-- The errors `processImageFromBase64` returns, one constructor per
`return nil, ...` statement; library errors are carried as their message. -/
inductive ProcError where
  | invalidBase64
  | decodeFailed (msg : String)
  | unsupportedFormat (format : String)
  | encodeFailed (msg : String)
  | encoderError (msg : String)
deriving DecidableEq, Repr

/-- The codec libraries the pipeline calls. -/
structure Codecs where
  /-- Go `base64.StdEncoding.DecodeString`. -/
  base64Decode : List Char → Option Bytes
  /-- Go `image.Decode`: the image and its format name, or an error. -/
  imageDecode : Bytes → Except String (Image × String)
  /-- Go `jpeg.Encode` with `Options{Quality: q}` into an empty buffer. -/
  jpegEncode : Image → Nat → Except String Bytes

/-- The result of a run: the returned value and the qualities at which
`jpeg.Encode` was called, in call order. -/
abbrev Outcome := Except ProcError Bytes × List Nat

/-- The loop `for quality > 10 { ... quality -= 10 }` (server.go:323-333)
followed by the final `return buf.Bytes(), nil` (server.go:342). `buf` is the
content of the buffer on entry, `calls` the encoder calls made so far. -/
def qualityLoop (c : Codecs) (img : Image) (quality : Nat) (buf : Bytes)
    (calls : List Nat) : Outcome :=
  if quality > 10 then
    match c.jpegEncode img quality with
    | .error e => (.error (.encodeFailed e), calls ++ [quality])
    | .ok b =>
      if b.length ≤ 100 * 1024 then (.ok b, calls ++ [quality])
      else qualityLoop c img (quality - 10) b (calls ++ [quality])
  else (.ok buf, calls)
termination_by quality
decreasing_by omega

/-- The header removal of `processImageFromBase64` (server.go:283-285):
everything up to and including the first comma is dropped. -/
def stripHeader (base64Data : List Char) : List Char :=
  let idx := stringsIndex base64Data ','
  if idx ≠ -1 then base64Data.drop (idx + 1).toNat else base64Data

/-- Steps 1 and 2 of `processImageFromBase64` (server.go:307-315): the grid
handed to the encoder. -/
def transform (options : ProcessingOptions) (img : Image) : Image :=
  let img := if options.Crop || options.Round then cropToSquare img else img
  let img := if options.Round then applyCircleMask img else img
  img

/-- `processImageFromBase64` (server.go:281-343), with the log of encoder
calls. -/
def processImageFromBase64Log (c : Codecs) (base64Data : List Char)
    (options : ProcessingOptions) (optimizeSize : Bool) : Outcome :=
  let base64Data := stripHeader base64Data
  match c.base64Decode base64Data with
  | none => (.error .invalidBase64, [])
  | some imgBytes =>
    match c.imageDecode imgBytes with
    | .error e => (.error (.decodeFailed e), [])
    | .ok (img, format) =>
      if !allowedFormats (ToLower format) then (.error (.unsupportedFormat format), [])
      else
        let img := transform options img
        if optimizeSize then qualityLoop c img 90 [] []
        else
          match c.jpegEncode img 85 with
          | .error e => (.error (.encoderError e), [85])
          | .ok b => (.ok b, [85])

/-- `processImageFromBase64`: the returned bytes or error. -/
def processImageFromBase64 (c : Codecs) (base64Data : List Char)
    (options : ProcessingOptions) (optimizeSize : Bool) : Except ProcError Bytes :=
  (processImageFromBase64Log c base64Data options optimizeSize).1

/-- The qualities at which `processImageFromBase64` calls `jpeg.Encode`. -/
def encoderCalls (c : Codecs) (base64Data : List Char)
    (options : ProcessingOptions) (optimizeSize : Bool) : List Nat :=
  (processImageFromBase64Log c base64Data options optimizeSize).2

/-- The qualities of the search, in the order the loop visits them. -/
def searchQualities : List Nat := [90, 80, 70, 60, 50, 40, 30, 20]

/-- The size budget `100*1024` of the search. -/
def sizeBudget : Nat := 100 * 1024

/-! ## Sample grids and codecs -/

/-- A 5-by-2 grid whose origin is `(3, 7)`; the pixel at `(x, y)` records its
own coordinates. -/
def wideGrid : Image := ⟨⟨⟨3, 7⟩, ⟨8, 9⟩⟩, fun x y => ⟨x.toNat, y.toNat, 0, 255⟩⟩

/-- A 4-by-4 grid of opaque black pixels. -/
def blackSquare : Image := ⟨⟨⟨0, 0⟩, ⟨4, 4⟩⟩, fun _ _ => ⟨0, 0, 0, 255⟩⟩

/-- The value of a character in the standard base64 alphabet. -/
def base64Value (c : Char) : Option Nat :=
  if 'A' ≤ c ∧ c ≤ 'Z' then some (c.toNat - 65)
  else if 'a' ≤ c ∧ c ≤ 'z' then some (c.toNat - 97 + 26)
  else if '0' ≤ c ∧ c ≤ '9' then some (c.toNat - 48 + 52)
  else if c = '+' then some 62
  else if c = '/' then some 63
  else none

/-- Decoding of a padded base64 text, four characters at a time; padding is
accepted in the last group only. -/
def base64Quanta : List Char → Option Bytes
  | [] => some []
  | [a, b, c, d] =>
    match base64Value a, base64Value b with
    | some va, some vb =>
      if c = '=' ∧ d = '=' then some [(va * 4 + vb / 16) % 256]
      else
        match base64Value c with
        | some vc =>
          if d = '=' then some [(va * 4 + vb / 16) % 256, (vb * 16 + vc / 4) % 256]
          else
            match base64Value d with
            | some vd =>
              some [(va * 4 + vb / 16) % 256, (vb * 16 + vc / 4) % 256, (vc * 64 + vd) % 256]
            | none => none
        | none => none
    | _, _ => none
  | a :: b :: c :: d :: rest =>
    match base64Value a, base64Value b, base64Value c, base64Value d, base64Quanta rest with
    | some va, some vb, some vc, some vd, some out =>
      some ((va * 4 + vb / 16) % 256 :: (vb * 16 + vc / 4) % 256 :: (vc * 64 + vd) % 256 :: out)
    | _, _, _, _, _ => none
  | _ => none

/-- Go `base64.StdEncoding.DecodeString`: line breaks are skipped, any other
character outside the alphabet and any incomplete group is an error. -/
def base64StdDecode (s : List Char) : Option Bytes :=
  base64Quanta (s.filter (fun c => c ≠ '\n' ∧ c ≠ '\r'))

/-- A stand-in for `image.Decode` that knows two one-byte files and, like
the library on data that matches no registered format, reports
`image: unknown format` on everything else. -/
def sampleImageDecode (imgBytes : Bytes) : Except String (Image × String) :=
  if imgBytes = [1] then .ok (blackSquare, "png")
  else if imgBytes = [2] then .ok (wideGrid, "jpeg")
  else .error "image: unknown format"

/-- An encoder whose output is over the budget at every quality. -/
def oversizeEncode (_ : Image) (quality : Nat) : Except String Bytes :=
  .ok (List.replicate (150000 + 1000 * quality) 0)

/-- An encoder whose output is within the budget from quality 50 down. -/
def stepEncode (_ : Image) (quality : Nat) : Except String Bytes :=
  .ok (List.replicate (2000 * quality) 0)

/-- The sample decoders with the always-oversize encoder. -/
def oversizeCodecs : Codecs := ⟨base64StdDecode, sampleImageDecode, oversizeEncode⟩

/-- The sample decoders with the stepwise encoder. -/
def stepCodecs : Codecs := ⟨base64StdDecode, sampleImageDecode, stepEncode⟩

/-! ## `image.Decode` with the decoders the program registers -/

/-- An entry of the format table of Go's `image` package
(`image.RegisterFormat`): the name, the magic bytes and the decoder. -/
structure Format where
  name : String
  magic : List Nat
  decode : Bytes → Except String Image

/-- Go `image.match`: the magic and the peeked bytes have the same length and
agree at every position where the magic is not `?` (byte 63). -/
def matchMagic (magic : List Nat) (b : Bytes) : Bool :=
  decide (magic.length = b.length) &&
    (List.zip magic b).all (fun mc => decide (mc.1 = mc.2) || decide (mc.1 = 63))

/-- The test of one table entry in Go `image.sniff`: `Peek(len(magic))`
succeeds, which needs that many bytes of input, and the bytes match. -/
def peekMatches (magic : List Nat) (r : Bytes) : Bool :=
  decide (magic.length ≤ r.length) && matchMagic magic (r.take magic.length)

/-- Go `image.sniff`: the first registered format whose magic matches. -/
def sniff (formats : List Format) (r : Bytes) : Option Format :=
  formats.find? (fun f => peekMatches f.magic r)

/-- Go `image.Decode`: `image: unknown format` when no registered format
matches, otherwise the result of that format's decoder with its name. -/
def Decode (formats : List Format) (r : Bytes) : Except String (Image × String) :=
  match sniff formats r with
  | none => .error "image: unknown format"
  | some f =>
    match f.decode r with
    | .error e => .error e
    | .ok m => .ok (m, f.name)

/-- The magic of `image/jpeg`: the bytes `ff d8`. -/
def jpegMagic : List Nat := [0xff, 0xd8]

/-- The magic of `image/png`: the eight bytes of the PNG signature. -/
def pngMagic : List Nat := [0x89, 0x50, 0x4e, 0x47, 0x0d, 0x0a, 0x1a, 0x0a]

/-- The format table of the program: server.go:8-12 links `image/jpeg` and
`image/png`, whose initialisers register these two entries, and no other
decoder. -/
def registeredFormats (jpegDecode pngDecode : Bytes → Except String Image) : List Format :=
  [⟨"jpeg", jpegMagic, jpegDecode⟩, ⟨"png", pngMagic, pngDecode⟩]

/-- The codecs of the program: `image.Decode` runs over `registeredFormats`;
the base64 decoder, the two image decoders and the JPEG encoder stay
parameters. -/
def serverCodecs (base64Decode : List Char → Option Bytes)
    (jpegDecode pngDecode : Bytes → Except String Image)
    (jpegEncode : Image → Nat → Except String Bytes) : Codecs :=
  ⟨base64Decode, Decode (registeredFormats jpegDecode pngDecode), jpegEncode⟩

/-- Whether the loop started at `quality` visits exactly the qualities `qs`,
in this order. -/
def visits : Nat → List Nat → Bool
  | quality, [] => decide (quality ≤ 10)
  | quality, q :: qs => decide (quality > 10) && decide (q = quality) && visits (quality - 10) qs

/-! ## Geometry lemmas -/

theorem tdiv_two_eq (a : Int) (h : 0 ≤ a) : Int.tdiv a 2 = a / 2 := by
  rw [Int.tdiv_eq_ediv h (by decide)]

theorem Set_Bounds (p : Image) (x y : Int) (c : RGBA) : (p.Set x y c).Bounds = p.Bounds := by
  unfold Image.Set
  split <;> rfl

theorem Set_At (p : Image) (x y : Int) (c : RGBA) (x' y' : Int) :
    (p.Set x y c).At x' y' =
      if x' = x ∧ y' = y ∧ Point.In ⟨x, y⟩ p.Bounds = true then c else p.At x' y' := by
  unfold Image.Set
  by_cases hin : Point.In ⟨x, y⟩ p.Bounds = true
  · simp [hin]
  · simp [hin]

theorem Point_In_iff (x y : Int) (r : Rectangle) :
    Point.In ⟨x, y⟩ r = true ↔ r.Min.X ≤ x ∧ x < r.Max.X ∧ r.Min.Y ≤ y ∧ y < r.Max.Y := by
  simp [Point.In, and_assoc]

/-- Intersecting a non-empty rectangle with one that contains it leaves it
unchanged. -/
theorem Intersect_of_subset (r s : Rectangle)
    (hx : r.Min.X < r.Max.X) (hy : r.Min.Y < r.Max.Y)
    (h1 : s.Min.X ≤ r.Min.X) (h2 : s.Min.Y ≤ r.Min.Y)
    (h3 : r.Max.X ≤ s.Max.X) (h4 : r.Max.Y ≤ s.Max.Y) : r.Intersect s = r := by
  obtain ⟨⟨a, b⟩, ⟨c, d⟩⟩ := r
  obtain ⟨⟨a', b'⟩, ⟨c', d'⟩⟩ := s
  simp only at hx hy h1 h2 h3 h4
  simp only [Rectangle.Intersect, Rectangle.Empty]
  have k1 : ¬ a < a' := by omega
  have k2 : ¬ b < b' := by omega
  have k3 : ¬ c > c' := by omega
  have k4 : ¬ d > d' := by omega
  have k5 : ¬ c ≤ a := by omega
  have k6 : ¬ d ≤ b := by omega
  simp [k1, k2, k3, k4, k5, k6]

/-- Drawing a whole non-empty source onto a fresh canvas of the same bounds
copies every pixel in the bounds. -/
theorem Draw_full (r : Rectangle) (src : Image) (sp : Point)
    (hx : r.Min.X < r.Max.X) (hy : r.Min.Y < r.Max.Y)
    (h1 : src.Bounds.Min.X + (r.Min.X - sp.X) ≤ r.Min.X)
    (h2 : src.Bounds.Min.Y + (r.Min.Y - sp.Y) ≤ r.Min.Y)
    (h3 : r.Max.X ≤ src.Bounds.Max.X + (r.Min.X - sp.X))
    (h4 : r.Max.Y ≤ src.Bounds.Max.Y + (r.Min.Y - sp.Y)) :
    (Draw (NewRGBA r) r src sp).Bounds = r ∧
    ∀ x y, (Draw (NewRGBA r) r src sp).At x y =
      if Point.In ⟨x, y⟩ r = true then src.At (sp.X + (x - r.Min.X)) (sp.Y + (y - r.Min.Y))
      else ⟨0, 0, 0, 0⟩ := by
  have e1 : r.Intersect (NewRGBA r).Bounds = r :=
    Intersect_of_subset r r hx hy (le_refl _) (le_refl _) (le_refl _) (le_refl _)
  have e2 : r.Intersect (src.Bounds.Add (r.Min.Sub sp)) = r :=
    Intersect_of_subset r _ hx hy h1 h2 h3 h4
  have e3 : r.Empty = false := by
    simp [Rectangle.Empty]; omega
  unfold Draw
  simp only [e1, e2, e3]
  simp [NewRGBA]

theorem Rect_square (n : Int) : Rect 0 0 n n = if 0 ≤ n then ⟨⟨0, 0⟩, ⟨n, n⟩⟩ else ⟨⟨n, n⟩, ⟨0, 0⟩⟩ := by
  unfold Rect
  by_cases h : 0 ≤ n
  · have h' : ¬ 0 > n := by omega
    simp [h, h']
  · have h' : 0 > n := by omega
    simp [h, h']

/-- The output of `cropToSquare` on a grid of positive width and height. -/
theorem cropToSquare_eq (img : Image) (hW : 1 ≤ img.Bounds.Dx) (hH : 1 ≤ img.Bounds.Dy) :
    (cropToSquare img).Bounds =
        ⟨⟨0, 0⟩, ⟨min img.Bounds.Dx img.Bounds.Dy, min img.Bounds.Dx img.Bounds.Dy⟩⟩ ∧
    ∀ x y, (cropToSquare img).At x y =
      if 0 ≤ x ∧ x < min img.Bounds.Dx img.Bounds.Dy ∧
          0 ≤ y ∧ y < min img.Bounds.Dx img.Bounds.Dy then
        img.At (img.Bounds.Min.X + (x + (img.Bounds.Dx - min img.Bounds.Dx img.Bounds.Dy) / 2))
          (img.Bounds.Min.Y + (y + (img.Bounds.Dy - min img.Bounds.Dx img.Bounds.Dy) / 2))
      else ⟨0, 0, 0, 0⟩ := by
  have hsize : (if img.Bounds.Dy < img.Bounds.Dx then img.Bounds.Dy else img.Bounds.Dx) =
      min img.Bounds.Dx img.Bounds.Dy := by
    by_cases h : img.Bounds.Dy < img.Bounds.Dx
    · rw [if_pos h]; omega
    · rw [if_neg h]; omega
  generalize hs : min img.Bounds.Dx img.Bounds.Dy = size at *
  have hs1 : 1 ≤ size := by omega
  have hsW : size ≤ img.Bounds.Dx := by omega
  have hsH : size ≤ img.Bounds.Dy := by omega
  have hrect : Rect 0 0 size size = ⟨⟨0, 0⟩, ⟨size, size⟩⟩ := by
    rw [Rect_square, if_pos (by omega)]
  have hx0 := tdiv_two_eq (img.Bounds.Dx - size) (by omega)
  have hy0 := tdiv_two_eq (img.Bounds.Dy - size) (by omega)
  have hDx : img.Bounds.Dx = img.Bounds.Max.X - img.Bounds.Min.X := rfl
  have hDy : img.Bounds.Dy = img.Bounds.Max.Y - img.Bounds.Min.Y := rfl
  have key := Draw_full ⟨⟨0, 0⟩, ⟨size, size⟩⟩ img
    ⟨(img.Bounds.Dx - size) / 2 + img.Bounds.Min.X, (img.Bounds.Dy - size) / 2 + img.Bounds.Min.Y⟩
    (by simp only; omega) (by simp only; omega) (by simp only; omega) (by simp only; omega)
    (by simp only; omega) (by simp only; omega)
  have hcrop : cropToSquare img = Draw (NewRGBA ⟨⟨0, 0⟩, ⟨size, size⟩⟩) ⟨⟨0, 0⟩, ⟨size, size⟩⟩ img
      ⟨(img.Bounds.Dx - size) / 2 + img.Bounds.Min.X,
        (img.Bounds.Dy - size) / 2 + img.Bounds.Min.Y⟩ := by
    unfold cropToSquare
    simp only [hsize, hrect, hx0, hy0]
    rfl
  rw [hcrop]
  refine ⟨key.1, ?_⟩
  intro x y
  rw [key.2 x y]
  have hiff := Point_In_iff x y ⟨⟨0, 0⟩, ⟨size, size⟩⟩
  simp only at hiff
  by_cases hin : 0 ≤ x ∧ x < size ∧ 0 ≤ y ∧ y < size
  · rw [if_pos (hiff.2 hin), if_pos hin]
    simp only [sub_zero]
    congr 1 <;> omega
  · rw [if_neg (fun h => hin (hiff.1 h)), if_neg hin]

/-! ## The circle test and the mask loops -/

/-- The `float64` test of `applyCircleMask`, in integer arithmetic. -/
theorem outsideCircle_iff (w h x y : Int) :
    outsideCircle w h x y = true ↔
      (2 * x + 1 - w) ^ 2 + (2 * y + 1 - h) ^ 2 > w ^ 2 := by
  unfold outsideCircle
  simp only [decide_eq_true_eq, gt_iff_lt]
  rw [← @Int.cast_lt ℚ]
  push_cast
  have h05 : (0.5 : ℚ) = 1 / 2 := by norm_num
  rw [h05]
  constructor <;> intro hlt <;> nlinarith [hlt]

/-- One row of the mask loop, for an arbitrary list of columns. -/
theorem maskCols_spec (w h y : Int) (l : List Nat) (dst : Image) :
    (l.foldl (fun (dst : Image) (x : Nat) =>
        if outsideCircle w h x y then dst.Set x y white else dst) dst).Bounds = dst.Bounds ∧
    ∀ x' y', (l.foldl (fun (dst : Image) (x : Nat) =>
        if outsideCircle w h x y then dst.Set x y white else dst) dst).At x' y' =
      if y' = y ∧ (∃ n ∈ l, (n : Int) = x') ∧ outsideCircle w h x' y = true ∧
          Point.In ⟨x', y⟩ dst.Bounds = true then white
      else dst.At x' y' := by
  induction l generalizing dst with
  | nil => simp
  | cons a l ih =>
    rw [List.foldl_cons]
    obtain ⟨ihB, ihA⟩ := ih (if outsideCircle w h a y then dst.Set a y white else dst)
    have hB : (if outsideCircle w h a y then dst.Set a y white else dst).Bounds = dst.Bounds := by
      split
      · exact Set_Bounds _ _ _ _
      · rfl
    refine ⟨ihB.trans hB, ?_⟩
    intro x' y'
    rw [ihA x' y', hB]
    have hstep : (if outsideCircle w h a y then dst.Set a y white else dst).At x' y' =
        if x' = (a : Int) ∧ y' = y ∧ outsideCircle w h a y = true ∧
            Point.In ⟨(a : Int), y⟩ dst.Bounds = true then white
        else dst.At x' y' := by
      by_cases ho : outsideCircle w h a y = true
      · rw [if_pos ho, Set_At]
        by_cases hc : x' = (a : Int) ∧ y' = y ∧ Point.In ⟨(a : Int), y⟩ dst.Bounds = true
        · rw [if_pos hc, if_pos ⟨hc.1, hc.2.1, ho, hc.2.2⟩]
        · rw [if_neg hc, if_neg (fun k => hc ⟨k.1, k.2.1, k.2.2.2⟩)]
      · rw [if_neg ho, if_neg (fun k => ho k.2.2.1)]
    rw [hstep]
    by_cases hl : ∃ n ∈ l, (n : Int) = x'
    · have hl' : ∃ n ∈ a :: l, (n : Int) = x' := by
        obtain ⟨n, hn, e⟩ := hl
        exact ⟨n, List.mem_cons_of_mem _ hn, e⟩
      by_cases hc : y' = y ∧ outsideCircle w h x' y = true ∧ Point.In ⟨x', y⟩ dst.Bounds = true
      · rw [if_pos ⟨hc.1, hl, hc.2⟩, if_pos ⟨hc.1, hl', hc.2⟩]
      · have n1 : ¬ (y' = y ∧ (∃ n ∈ l, (n : Int) = x') ∧ outsideCircle w h x' y = true ∧
            Point.In ⟨x', y⟩ dst.Bounds = true) := fun k => hc ⟨k.1, k.2.2⟩
        have n2 : ¬ (y' = y ∧ (∃ n ∈ a :: l, (n : Int) = x') ∧ outsideCircle w h x' y = true ∧
            Point.In ⟨x', y⟩ dst.Bounds = true) := fun k => hc ⟨k.1, k.2.2⟩
        have n3 : ¬ (x' = (a : Int) ∧ y' = y ∧ outsideCircle w h a y = true ∧
            Point.In ⟨(a : Int), y⟩ dst.Bounds = true) := by
          rintro ⟨rfl, k1, k2, k3⟩
          exact hc ⟨k1, k2, k3⟩
        rw [if_neg n1, if_neg n2, if_neg n3]
    · rw [if_neg (fun k => hl k.2.1)]
      by_cases ha : x' = (a : Int)
      · subst ha
        have hl' : ∃ n ∈ a :: l, (n : Int) = (a : Int) := ⟨a, List.mem_cons_self _ _, rfl⟩
        by_cases hc : y' = y ∧ outsideCircle w h a y = true ∧
            Point.In ⟨(a : Int), y⟩ dst.Bounds = true
        · have p1 : (a : Int) = (a : Int) ∧ y' = y ∧ outsideCircle w h a y = true ∧
              Point.In ⟨(a : Int), y⟩ dst.Bounds = true := ⟨rfl, hc⟩
          have p2 : y' = y ∧ (∃ n ∈ a :: l, (n : Int) = (a : Int)) ∧
              outsideCircle w h a y = true ∧
              Point.In ⟨(a : Int), y⟩ dst.Bounds = true := ⟨hc.1, hl', hc.2⟩
          rw [if_pos p1, if_pos p2]
        · have n1 : ¬ ((a : Int) = (a : Int) ∧ y' = y ∧ outsideCircle w h a y = true ∧
              Point.In ⟨(a : Int), y⟩ dst.Bounds = true) := fun k => hc k.2
          have n2 : ¬ (y' = y ∧ (∃ n ∈ a :: l, (n : Int) = (a : Int)) ∧
              outsideCircle w h a y = true ∧
              Point.In ⟨(a : Int), y⟩ dst.Bounds = true) := fun k => hc ⟨k.1, k.2.2⟩
          rw [if_neg n1, if_neg n2]
      · have hl' : ¬ ∃ n ∈ a :: l, (n : Int) = x' := by
          rintro ⟨n, hn, e⟩
          rcases List.mem_cons.1 hn with rfl | hn
          · exact ha e.symm
          · exact hl ⟨n, hn, e⟩
        have n1 : ¬ (x' = (a : Int) ∧ y' = y ∧ outsideCircle w h a y = true ∧
            Point.In ⟨(a : Int), y⟩ dst.Bounds = true) := fun k => ha k.1
        have n2 : ¬ (y' = y ∧ (∃ n ∈ a :: l, (n : Int) = x') ∧ outsideCircle w h x' y = true ∧
            Point.In ⟨x', y⟩ dst.Bounds = true) := fun k => hl' k.2.1
        rw [if_neg n1, if_neg n2]

/-- One row of the mask loop. -/
theorem maskRow_spec (w h y : Int) (dst : Image) :
    (maskRow w h y dst).Bounds = dst.Bounds ∧
    ∀ x' y', (maskRow w h y dst).At x' y' =
      if y' = y ∧ (0 ≤ x' ∧ x' < w) ∧ outsideCircle w h x' y = true ∧
          Point.In ⟨x', y⟩ dst.Bounds = true then white
      else dst.At x' y' := by
  obtain ⟨hB, hA⟩ := maskCols_spec w h y (List.range w.toNat) dst
  refine ⟨hB, ?_⟩
  intro x' y'
  have hA' := hA x' y'
  unfold maskRow
  rw [hA']
  have hiff : (∃ n ∈ List.range w.toNat, (n : Int) = x') ↔ (0 ≤ x' ∧ x' < w) := by
    constructor
    · rintro ⟨n, hn, rfl⟩
      rw [List.mem_range] at hn
      omega
    · rintro ⟨h0, h1⟩
      refine ⟨x'.toNat, ?_, ?_⟩
      · rw [List.mem_range]; omega
      · omega
  simp only [hiff]

/-- The outer mask loop, for an arbitrary list of rows. -/
theorem maskRows_spec (w h : Int) (l : List Nat) (dst : Image) :
    (l.foldl (fun (dst : Image) (y : Nat) => maskRow w h y dst) dst).Bounds = dst.Bounds ∧
    ∀ x' y', (l.foldl (fun (dst : Image) (y : Nat) => maskRow w h y dst) dst).At x' y' =
      if (∃ m ∈ l, (m : Int) = y') ∧ (0 ≤ x' ∧ x' < w) ∧ outsideCircle w h x' y' = true ∧
          Point.In ⟨x', y'⟩ dst.Bounds = true then white
      else dst.At x' y' := by
  induction l generalizing dst with
  | nil => simp
  | cons a l ih =>
    rw [List.foldl_cons]
    obtain ⟨ihB, ihA⟩ := ih (maskRow w h a dst)
    obtain ⟨rB, rA⟩ := maskRow_spec w h a dst
    refine ⟨ihB.trans rB, ?_⟩
    intro x' y'
    rw [ihA x' y', rB, rA x' y']
    by_cases hc : (0 ≤ x' ∧ x' < w) ∧ outsideCircle w h x' y' = true ∧
        Point.In ⟨x', y'⟩ dst.Bounds = true
    · by_cases hl : ∃ m ∈ l, (m : Int) = y'
      · have hl' : ∃ m ∈ a :: l, (m : Int) = y' := by
          obtain ⟨m, hm, e⟩ := hl
          exact ⟨m, List.mem_cons_of_mem _ hm, e⟩
        have p1 : (∃ m ∈ l, (m : Int) = y') ∧ (0 ≤ x' ∧ x' < w) ∧
            outsideCircle w h x' y' = true ∧ Point.In ⟨x', y'⟩ dst.Bounds = true := ⟨hl, hc⟩
        have p2 : (∃ m ∈ a :: l, (m : Int) = y') ∧ (0 ≤ x' ∧ x' < w) ∧
            outsideCircle w h x' y' = true ∧ Point.In ⟨x', y'⟩ dst.Bounds = true := ⟨hl', hc⟩
        rw [if_pos p1, if_pos p2]
      · have n1 : ¬ ((∃ m ∈ l, (m : Int) = y') ∧ (0 ≤ x' ∧ x' < w) ∧
            outsideCircle w h x' y' = true ∧ Point.In ⟨x', y'⟩ dst.Bounds = true) :=
          fun k => hl k.1
        rw [if_neg n1]
        by_cases ha : y' = (a : Int)
        · subst ha
          have p1 : (a : Int) = (a : Int) ∧ (0 ≤ x' ∧ x' < w) ∧
              outsideCircle w h x' a = true ∧ Point.In ⟨x', (a : Int)⟩ dst.Bounds = true :=
            ⟨rfl, hc⟩
          have p2 : (∃ m ∈ a :: l, (m : Int) = (a : Int)) ∧ (0 ≤ x' ∧ x' < w) ∧
              outsideCircle w h x' a = true ∧ Point.In ⟨x', (a : Int)⟩ dst.Bounds = true :=
            ⟨⟨a, List.mem_cons_self _ _, rfl⟩, hc⟩
          rw [if_pos p1, if_pos p2]
        · have hl' : ¬ ∃ m ∈ a :: l, (m : Int) = y' := by
            rintro ⟨m, hm, e⟩
            rcases List.mem_cons.1 hm with rfl | hm
            · exact ha e.symm
            · exact hl ⟨m, hm, e⟩
          have n2 : ¬ (y' = (a : Int) ∧ (0 ≤ x' ∧ x' < w) ∧
              outsideCircle w h x' a = true ∧ Point.In ⟨x', (a : Int)⟩ dst.Bounds = true) :=
            fun k => ha k.1
          have n3 : ¬ ((∃ m ∈ a :: l, (m : Int) = y') ∧ (0 ≤ x' ∧ x' < w) ∧
              outsideCircle w h x' y' = true ∧ Point.In ⟨x', y'⟩ dst.Bounds = true) :=
            fun k => hl' k.1
          rw [if_neg n2, if_neg n3]
    · have n1 : ¬ ((∃ m ∈ l, (m : Int) = y') ∧ (0 ≤ x' ∧ x' < w) ∧
          outsideCircle w h x' y' = true ∧ Point.In ⟨x', y'⟩ dst.Bounds = true) :=
        fun k => hc k.2
      have n2 : ¬ (y' = (a : Int) ∧ (0 ≤ x' ∧ x' < w) ∧
          outsideCircle w h x' a = true ∧ Point.In ⟨x', (a : Int)⟩ dst.Bounds = true) := by
        rintro ⟨rfl, k⟩
        exact hc k
      have n3 : ¬ ((∃ m ∈ a :: l, (m : Int) = y') ∧ (0 ≤ x' ∧ x' < w) ∧
          outsideCircle w h x' y' = true ∧ Point.In ⟨x', y'⟩ dst.Bounds = true) :=
        fun k => hc k.2
      rw [if_neg n1, if_neg n2, if_neg n3]

theorem mem_range_cast_iff (n : Int) (v : Int) :
    (∃ m ∈ List.range n.toNat, (m : Int) = v) ↔ (0 ≤ v ∧ v < n) := by
  constructor
  · rintro ⟨m, hm, rfl⟩
    rw [List.mem_range] at hm
    omega
  · rintro ⟨h0, h1⟩
    refine ⟨v.toNat, ?_, ?_⟩
    · rw [List.mem_range]; omega
    · omega

/-- The output of `applyCircleMask` on a square grid of side `N ≥ 1` whose
origin is `(0, 0)`. -/
theorem applyCircleMask_eq (img : Image) (N : Int) (hN : 1 ≤ N)
    (hb : img.Bounds = ⟨⟨0, 0⟩, ⟨N, N⟩⟩) :
    (applyCircleMask img).Bounds = img.Bounds ∧
    ∀ x y, 0 ≤ x → x < N → 0 ≤ y → y < N →
      (applyCircleMask img).At x y =
        if outsideCircle N N x y = true then white else img.At x y := by
  have hDx : img.Bounds.Dx = N := by rw [hb]; simp [Rectangle.Dx]
  have hDy : img.Bounds.Dy = N := by rw [hb]; simp [Rectangle.Dy]
  obtain ⟨dB, dA⟩ := Draw_full img.Bounds img img.Bounds.Min
    (by rw [hb]; simp only; omega) (by rw [hb]; simp only; omega)
    (by omega) (by omega) (by omega) (by omega)
  obtain ⟨mB, mA⟩ := maskRows_spec img.Bounds.Dx img.Bounds.Dy (List.range img.Bounds.Dy.toNat)
    (Draw (NewRGBA img.Bounds) img.Bounds img img.Bounds.Min)
  have hdef : applyCircleMask img =
      (List.range img.Bounds.Dy.toNat).foldl
        (fun (dst : Image) (y : Nat) => maskRow img.Bounds.Dx img.Bounds.Dy y dst)
        (Draw (NewRGBA img.Bounds) img.Bounds img img.Bounds.Min) := rfl
  rw [hdef]
  refine ⟨mB.trans dB, ?_⟩
  intro x y hx0 hx1 hy0 hy1
  have hin : Point.In ⟨x, y⟩ img.Bounds = true := by
    rw [Point_In_iff, hb]
    exact ⟨hx0, hx1, hy0, hy1⟩
  rw [mA x y, dB, dA x y, if_pos hin]
  simp only [mem_range_cast_iff, hDx, hDy]
  have hsrc : img.At (img.Bounds.Min.X + (x - img.Bounds.Min.X))
      (img.Bounds.Min.Y + (y - img.Bounds.Min.Y)) = img.At x y := by
    congr 1 <;> omega
  rw [hsrc]
  by_cases ho : outsideCircle N N x y = true
  · rw [if_pos ho, if_pos ⟨⟨hy0, hy1⟩, ⟨hx0, hx1⟩, ho, hin⟩]
  · rw [if_neg ho, if_neg (fun k => ho k.2.2.1)]

theorem Draw_Bounds (dst : Image) (r : Rectangle) (src : Image) (sp : Point) :
    (Draw dst r src sp).Bounds = dst.Bounds := by
  unfold Draw
  simp only
  split <;> rfl

theorem applyCircleMask_Bounds (img : Image) : (applyCircleMask img).Bounds = img.Bounds := by
  have hdef : applyCircleMask img =
      (List.range img.Bounds.Dy.toNat).foldl
        (fun (dst : Image) (y : Nat) => maskRow img.Bounds.Dx img.Bounds.Dy y dst)
        (Draw (NewRGBA img.Bounds) img.Bounds img img.Bounds.Min) := rfl
  rw [hdef, (maskRows_spec _ _ _ _).1, Draw_Bounds]
  rfl

/-- The circle test with the pixel centre written as `(x + 1/2, y + 1/2)`. -/
theorem centre_test_iff (N x y : Int) :
    ((x : ℚ) + 1 / 2 - (N : ℚ) / 2) ^ 2 + ((y : ℚ) + 1 / 2 - (N : ℚ) / 2) ^ 2 > ((N : ℚ) / 2) ^ 2 ↔
      (2 * x + 1 - N) ^ 2 + (2 * y + 1 - N) ^ 2 > N ^ 2 := by
  simp only [gt_iff_lt]
  rw [← @Int.cast_lt ℚ]
  push_cast
  constructor <;> intro hlt <;> nlinarith [hlt]

/-! ## Claims about `cropToSquare` and `applyCircleMask` -/

/-- C4: on a grid of width `W ≥ 1` and height `H ≥ 1`, `cropToSquare` returns
a grid with origin `(0, 0)` and width and height `size = min W H`; its pixel
at `(x, y)`, for `0 ≤ x, y < size`, is the input pixel at offset
`(x + (W - size) / 2, y + (H - size) / 2)` from the input's top-left corner,
with floor division; and when `W - size` (or `H - size`) is odd, the margin
on the origin side is one pixel smaller than the margin on the far side. -/
theorem cropToSquare_centered_window (img : Image)
    (hW : 1 ≤ img.Bounds.Dx) (hH : 1 ≤ img.Bounds.Dy) :
    (cropToSquare img).Bounds.Min = ⟨0, 0⟩ ∧
    (cropToSquare img).Bounds.Dx = min img.Bounds.Dx img.Bounds.Dy ∧
    (cropToSquare img).Bounds.Dy = min img.Bounds.Dx img.Bounds.Dy ∧
    (∀ x y, 0 ≤ x → x < min img.Bounds.Dx img.Bounds.Dy →
        0 ≤ y → y < min img.Bounds.Dx img.Bounds.Dy →
      (cropToSquare img).At x y =
        img.At (img.Bounds.Min.X + (x + (img.Bounds.Dx - min img.Bounds.Dx img.Bounds.Dy) / 2))
          (img.Bounds.Min.Y + (y + (img.Bounds.Dy - min img.Bounds.Dx img.Bounds.Dy) / 2))) ∧
    ((img.Bounds.Dx - min img.Bounds.Dx img.Bounds.Dy) % 2 = 1 →
      img.Bounds.Dx - (min img.Bounds.Dx img.Bounds.Dy +
          (img.Bounds.Dx - min img.Bounds.Dx img.Bounds.Dy) / 2) =
        (img.Bounds.Dx - min img.Bounds.Dx img.Bounds.Dy) / 2 + 1) ∧
    ((img.Bounds.Dy - min img.Bounds.Dx img.Bounds.Dy) % 2 = 1 →
      img.Bounds.Dy - (min img.Bounds.Dx img.Bounds.Dy +
          (img.Bounds.Dy - min img.Bounds.Dx img.Bounds.Dy) / 2) =
        (img.Bounds.Dy - min img.Bounds.Dx img.Bounds.Dy) / 2 + 1) := by
  obtain ⟨hB, hA⟩ := cropToSquare_eq img hW hH
  refine ⟨by rw [hB], by rw [hB]; simp [Rectangle.Dx], by rw [hB]; simp [Rectangle.Dy],
    ?_, ?_, ?_⟩
  · intro x y hx0 hx1 hy0 hy1
    rw [hA x y, if_pos ⟨hx0, hx1, hy0, hy1⟩]
  · intro hodd
    omega
  · intro hodd
    omega

/-- The 5-by-2 sample grid is cropped to its centred 2-by-2 window: offset
`(5 - 2) / 2 = 1` on the left, 2 on the right. -/
theorem cropToSquare_centered_window_witness :
    (1 ≤ wideGrid.Bounds.Dx ∧ 1 ≤ wideGrid.Bounds.Dy) ∧
    (cropToSquare wideGrid).Bounds.Min = ⟨0, 0⟩ ∧
    (cropToSquare wideGrid).Bounds.Dx = 2 ∧
    (cropToSquare wideGrid).Bounds.Dy = 2 ∧
    (cropToSquare wideGrid).At 0 1 = wideGrid.At (3 + (0 + 1)) (7 + (1 + 0)) ∧
    (cropToSquare wideGrid).At 0 1 = ⟨4, 8, 0, 255⟩ := by
  have h := cropToSquare_centered_window wideGrid (by decide) (by decide)
  have e : min wideGrid.Bounds.Dx wideGrid.Bounds.Dy = 2 := by decide
  have hp := h.2.2.2.1 0 1 (by decide) (by decide) (by decide) (by decide)
  rw [e] at h
  exact ⟨⟨by decide, by decide⟩, h.1, h.2.1, h.2.2.1, hp, hp.trans (by decide)⟩

/-- C5: on a square grid of side `N` with origin `(0, 0)`, `applyCircleMask`
returns a grid of the same bounds in which the pixel at `(x, y)`,
`0 ≤ x, y < N`, is opaque white when
`(x + 1/2 - N/2)^2 + (y + 1/2 - N/2)^2 > (N/2)^2`, which is the same as
`(2x+1-N)^2 + (2y+1-N)^2 > N^2` over the integers, and is the input pixel at
`(x, y)` otherwise. -/
theorem applyCircleMask_pixelwise (img : Image) (N : Int)
    (hb : img.Bounds = ⟨⟨0, 0⟩, ⟨N, N⟩⟩) :
    (applyCircleMask img).Bounds = img.Bounds ∧
    ∀ x y, 0 ≤ x → x < N → 0 ≤ y → y < N →
      ((((x : ℚ) + 1 / 2 - (N : ℚ) / 2) ^ 2 + ((y : ℚ) + 1 / 2 - (N : ℚ) / 2) ^ 2
            > ((N : ℚ) / 2) ^ 2) ↔
          (2 * x + 1 - N) ^ 2 + (2 * y + 1 - N) ^ 2 > N ^ 2) ∧
      ((2 * x + 1 - N) ^ 2 + (2 * y + 1 - N) ^ 2 > N ^ 2 →
        (applyCircleMask img).At x y = white) ∧
      (¬ (2 * x + 1 - N) ^ 2 + (2 * y + 1 - N) ^ 2 > N ^ 2 →
        (applyCircleMask img).At x y = img.At x y) := by
  refine ⟨applyCircleMask_Bounds img, ?_⟩
  intro x y hx0 hx1 hy0 hy1
  have hA := (applyCircleMask_eq img N (by omega) hb).2 x y hx0 hx1 hy0 hy1
  refine ⟨centre_test_iff N x y, ?_, ?_⟩
  · intro hout
    rw [hA, if_pos ((outsideCircle_iff N N x y).2 hout)]
  · intro hin
    rw [hA, if_neg (fun k => hin ((outsideCircle_iff N N x y).1 k))]

/-- In the 4-by-4 black grid the corner pixel is filled and its neighbour
`(0, 1)` is kept. -/
theorem applyCircleMask_pixelwise_witness :
    blackSquare.Bounds = ⟨⟨0, 0⟩, ⟨4, 4⟩⟩ ∧
    (applyCircleMask blackSquare).Bounds = blackSquare.Bounds ∧
    (applyCircleMask blackSquare).At 0 0 = white ∧
    (applyCircleMask blackSquare).At 0 1 = ⟨0, 0, 0, 255⟩ := by
  have h := applyCircleMask_pixelwise blackSquare 4 rfl
  exact ⟨rfl, h.1,
    (h.2 0 0 (by decide) (by decide) (by decide) (by decide)).2.1 (by decide),
    (h.2 0 1 (by decide) (by decide) (by decide) (by decide)).2.2 (by decide)⟩

/-- C9, as stated, fails: in the 4-by-4 black grid the point `(0, 1)` is at
distance `√5 > 2` from the centre `(2, 2)`, yet the centre `(1/2, 3/2)` of
that pixel is inside the circle and the mask stage leaves the pixel black. -/
theorem corner_distance_not_filled :
    blackSquare.Bounds = ⟨⟨0, 0⟩, ⟨4, 4⟩⟩ ∧
    (((0 : ℚ) - 4 / 2) ^ 2 + ((1 : ℚ) - 4 / 2) ^ 2 > ((4 : ℚ) / 2) ^ 2) ∧
    (transform ⟨false, true⟩ blackSquare).At 0 1 = ⟨0, 0, 0, 255⟩ ∧
    (transform ⟨false, true⟩ blackSquare).At 0 1 ≠ white := by
  have hW : (1 : Int) ≤ blackSquare.Bounds.Dx := by decide
  have hH : (1 : Int) ≤ blackSquare.Bounds.Dy := by decide
  obtain ⟨cB, cA⟩ := cropToSquare_eq blackSquare hW hH
  have hmin : min blackSquare.Bounds.Dx blackSquare.Bounds.Dy = 4 := by decide
  rw [hmin] at cB
  have hA := (applyCircleMask_eq (cropToSquare blackSquare) 4 (by decide) cB).2 0 1
    (by decide) (by decide) (by decide) (by decide)
  have hno : ¬ outsideCircle 4 4 0 1 = true := by
    rw [outsideCircle_iff]
    decide
  rw [if_neg hno, cA 0 1] at hA
  have hpix : (transform ⟨false, true⟩ blackSquare).At 0 1 = ⟨0, 0, 0, 255⟩ := by
    have ht : transform ⟨false, true⟩ blackSquare = applyCircleMask (cropToSquare blackSquare) :=
      rfl
    rw [ht, hA]
    decide
  refine ⟨rfl, by norm_num, hpix, ?_⟩
  rw [hpix]
  decide

/-- C9, amended: when a grid of width and height at least 1 is processed with
`round=true`, the mask stage outputs a square of side `N = min W H` in which
every pixel `(x, y)`, `0 ≤ x, y < N`, whose centre `(x + 1/2, y + 1/2)` is at
distance greater than `N/2` from the image centre `(N/2, N/2)` is opaque
white. -/
theorem round_fills_outside_circle (img : Image) (crop : Bool)
    (hW : 1 ≤ img.Bounds.Dx) (hH : 1 ≤ img.Bounds.Dy) (x y : Int)
    (hx : 0 ≤ x ∧ x < min img.Bounds.Dx img.Bounds.Dy)
    (hy : 0 ≤ y ∧ y < min img.Bounds.Dx img.Bounds.Dy)
    (hout : ((x : ℚ) + 1 / 2 - ((min img.Bounds.Dx img.Bounds.Dy : Int) : ℚ) / 2) ^ 2 +
        ((y : ℚ) + 1 / 2 - ((min img.Bounds.Dx img.Bounds.Dy : Int) : ℚ) / 2) ^ 2 >
      (((min img.Bounds.Dx img.Bounds.Dy : Int) : ℚ) / 2) ^ 2) :
    (transform ⟨crop, true⟩ img).At x y = white := by
  have ht : transform ⟨crop, true⟩ img = applyCircleMask (cropToSquare img) := by
    simp [transform]
  obtain ⟨cB, -⟩ := cropToSquare_eq img hW hH
  have hA := (applyCircleMask_eq (cropToSquare img) _ (by omega) cB).2 x y hx.1 hx.2 hy.1 hy.2
  rw [ht, hA, if_pos]
  rw [outsideCircle_iff]
  exact (centre_test_iff _ x y).1 hout

/-- The corner pixel of the 4-by-4 black grid is white after rounding. -/
theorem round_fills_outside_circle_witness :
    (1 ≤ blackSquare.Bounds.Dx ∧ 1 ≤ blackSquare.Bounds.Dy) ∧
    (transform ⟨false, true⟩ blackSquare).At 0 0 = white :=
  ⟨⟨by decide, by decide⟩,
    round_fills_outside_circle blackSquare false (by decide) (by decide) 0 0
      ⟨by decide, by decide⟩ ⟨by decide, by decide⟩
      (by
        have e : min blackSquare.Bounds.Dx blackSquare.Bounds.Dy = 4 := by decide
        rw [e]
        norm_num)⟩

/-- On a grid without white pixels, the pixels that come out white are those
the loop guard selects. -/
theorem replaced_iff_guard (img : Image) (N : Int) (hb : img.Bounds = ⟨⟨0, 0⟩, ⟨N, N⟩⟩)
    (hnw : ∀ u v, img.At u v ≠ white) (x y : Int) (hx : 0 ≤ x ∧ x < N) (hy : 0 ≤ y ∧ y < N) :
    (applyCircleMask img).At x y = white ↔ outsideCircle N N x y = true := by
  have hA := (applyCircleMask_eq img N (by omega) hb).2 x y hx.1 hx.2 hy.1 hy.2
  rw [hA]
  by_cases ho : outsideCircle N N x y = true
  · simp [ho]
  · simp [ho, hnw x y]

theorem guard_mirror (N x y : Int) :
    outsideCircle N N x y = outsideCircle N N (N - 1 - x) y ∧
    outsideCircle N N x y = outsideCircle N N x (N - 1 - y) ∧
    outsideCircle N N x y = outsideCircle N N y x := by
  have e1 : (2 * (N - 1 - x) + 1 - N) ^ 2 = (2 * x + 1 - N) ^ 2 := by ring
  have e2 : (2 * (N - 1 - y) + 1 - N) ^ 2 = (2 * y + 1 - N) ^ 2 := by ring
  refine ⟨?_, ?_, ?_⟩
  · rw [Bool.eq_iff_iff, outsideCircle_iff, outsideCircle_iff, e1]
  · rw [Bool.eq_iff_iff, outsideCircle_iff, outsideCircle_iff, e2]
  · rw [Bool.eq_iff_iff, outsideCircle_iff, outsideCircle_iff, add_comm]

/-- C10: for every side `N ≥ 1` and every `0 ≤ x, y < N`, the loop guard of
`applyCircleMask` selects `(x, y)` exactly when it selects `(N-1-x, y)`,
`(x, N-1-y)` and `(y, x)`; hence in every `N`-by-`N` grid without white
pixels the pixel `(x, y)` is replaced by white if and only if each of these
mirror images is. -/
theorem mask_replaced_set_symmetric (N : Int) (hN : 1 ≤ N) (x y : Int)
    (hx : 0 ≤ x ∧ x < N) (hy : 0 ≤ y ∧ y < N) :
    (outsideCircle N N x y = outsideCircle N N (N - 1 - x) y ∧
      outsideCircle N N x y = outsideCircle N N x (N - 1 - y) ∧
      outsideCircle N N x y = outsideCircle N N y x) ∧
    ∀ img : Image, img.Bounds = ⟨⟨0, 0⟩, ⟨N, N⟩⟩ → (∀ u v, img.At u v ≠ white) →
      (((applyCircleMask img).At x y = white ↔
          (applyCircleMask img).At (N - 1 - x) y = white) ∧
        ((applyCircleMask img).At x y = white ↔
          (applyCircleMask img).At x (N - 1 - y) = white) ∧
        ((applyCircleMask img).At x y = white ↔ (applyCircleMask img).At y x = white)) := by
  have hN' : 1 ≤ N := hN
  obtain ⟨g1, g2, g3⟩ := guard_mirror N x y
  refine ⟨⟨g1, g2, g3⟩, ?_⟩
  intro img hb hnw
  have hxm : 0 ≤ N - 1 - x ∧ N - 1 - x < N := by omega
  have hym : 0 ≤ N - 1 - y ∧ N - 1 - y < N := by omega
  rw [replaced_iff_guard img N hb hnw x y hx hy,
    replaced_iff_guard img N hb hnw (N - 1 - x) y hxm hy,
    replaced_iff_guard img N hb hnw x (N - 1 - y) hx hym,
    replaced_iff_guard img N hb hnw y x hy hx, ← g1, ← g2, ← g3]
  exact ⟨Iff.rfl, Iff.rfl, Iff.rfl⟩

/-- The three mirror images of pixel `(0, 1)` in the 4-by-4 black grid. -/
theorem mask_replaced_set_symmetric_witness :
    ((1 : Int) ≤ 4 ∧ ((0 : Int) ≤ 0 ∧ (0 : Int) < 4) ∧ ((0 : Int) ≤ 1 ∧ (1 : Int) < 4)) ∧
    ((applyCircleMask blackSquare).At 0 1 = white ↔
      (applyCircleMask blackSquare).At (4 - 1 - 0) 1 = white) ∧
    ((applyCircleMask blackSquare).At 0 1 = white ↔
      (applyCircleMask blackSquare).At 0 (4 - 1 - 1) = white) ∧
    ((applyCircleMask blackSquare).At 0 1 = white ↔
      (applyCircleMask blackSquare).At 1 0 = white) :=
  ⟨⟨by decide, ⟨by decide, by decide⟩, ⟨by decide, by decide⟩⟩,
    (mask_replaced_set_symmetric 4 (by decide) 0 1 ⟨by decide, by decide⟩
      ⟨by decide, by decide⟩).2 blackSquare rfl
      (fun _ _ => show (⟨0, 0, 0, 255⟩ : RGBA) ≠ white by decide)⟩

/-! ## The quality search -/

theorem qualityLoop_fit (c : Codecs) (img : Image) (q : Nat) (buf : Bytes) (calls : List Nat)
    (b : Bytes) (hq : q > 10) (he : c.jpegEncode img q = .ok b) (hb : b.length ≤ sizeBudget) :
    qualityLoop c img q buf calls = (.ok b, calls ++ [q]) := by
  unfold sizeBudget at hb
  rw [qualityLoop]
  simp [hq, he, hb]

theorem qualityLoop_over (c : Codecs) (img : Image) (q : Nat) (buf : Bytes) (calls : List Nat)
    (b : Bytes) (hq : q > 10) (he : c.jpegEncode img q = .ok b) (hb : sizeBudget < b.length) :
    qualityLoop c img q buf calls = qualityLoop c img (q - 10) b (calls ++ [q]) := by
  unfold sizeBudget at hb
  have hb' : ¬ b.length ≤ 100 * 1024 := by omega
  rw [qualityLoop]
  simp [hq, he, hb']

theorem qualityLoop_exit (c : Codecs) (img : Image) (q : Nat) (buf : Bytes) (calls : List Nat)
    (hq : q ≤ 10) : qualityLoop c img q buf calls = (.ok buf, calls) := by
  have hq' : ¬ q > 10 := by omega
  rw [qualityLoop]
  simp [hq']

theorem visits_cons (quality q : Nat) (qs : List Nat) (h : visits quality (q :: qs) = true) :
    quality > 10 ∧ q = quality ∧ visits (quality - 10) qs = true := by
  simpa [visits, and_assoc] using h

/-- The loop returns the first encoding within the budget among the
qualities it visits. -/
theorem qualityLoop_scan (c : Codecs) (img : Image) :
    ∀ (qs : List Nat) (q : Nat) (buf : Bytes) (calls : List Nat),
      visits q qs = true →
      (∀ q' ∈ qs, ∃ b, c.jpegEncode img q' = .ok b) →
      (∃ q' ∈ qs, ∀ b, c.jpegEncode img q' = .ok b → b.length ≤ sizeBudget) →
      ∃ pre q' post b, qs = pre ++ q' :: post ∧ c.jpegEncode img q' = .ok b ∧
        b.length ≤ sizeBudget ∧
        (∀ t ∈ pre, ∀ b', c.jpegEncode img t = .ok b' → sizeBudget < b'.length) ∧
        qualityLoop c img q buf calls = (.ok b, calls ++ pre ++ [q']) := by
  intro qs
  induction qs with
  | nil =>
    intro q buf calls _ _ hfit
    obtain ⟨q', hq', -⟩ := hfit
    cases hq'
  | cons a rest ih =>
    intro q buf calls hv henc hfit
    obtain ⟨hq, rfl, hv'⟩ := visits_cons q a rest hv
    obtain ⟨b, hb⟩ := henc a (List.mem_cons_self _ _)
    by_cases hlen : b.length ≤ sizeBudget
    · refine ⟨[], a, rest, b, rfl, hb, hlen, ?_, ?_⟩
      · intro t ht
        cases ht
      · rw [qualityLoop_fit c img a buf calls b hq hb hlen]
        simp
    · have hover : sizeBudget < b.length := by omega
      have hfit' : ∃ q' ∈ rest, ∀ b, c.jpegEncode img q' = .ok b → b.length ≤ sizeBudget := by
        obtain ⟨q', hq', hq'fit⟩ := hfit
        rcases List.mem_cons.1 hq' with rfl | hmem
        · exact absurd (hq'fit b hb) hlen
        · exact ⟨q', hmem, hq'fit⟩
      obtain ⟨pre, q', post, b', hsplit, hb', hlen', hpre, hloop⟩ :=
        ih (a - 10) b (calls ++ [a]) hv'
          (fun t ht => henc t (List.mem_cons_of_mem _ ht)) hfit'
      refine ⟨a :: pre, q', post, b', by rw [hsplit]; rfl, hb', hlen', ?_, ?_⟩
      · intro t ht b'' hb''
        rcases List.mem_cons.1 ht with rfl | hmem
        · rw [hb] at hb''
          cases hb''
          exact hover
        · exact hpre t hmem b'' hb''
      · rw [qualityLoop_over c img a buf calls b hq hb hover, hloop]
        simp

/-- When every visited quality encodes over the budget, the loop runs to its
end and the function returns the content of the buffer, which is the last
encoding. -/
theorem qualityLoop_exhaust (c : Codecs) (img : Image) :
    ∀ (qs : List Nat) (q : Nat) (buf : Bytes) (calls : List Nat),
      visits q qs = true →
      (∀ q' ∈ qs, ∃ b, c.jpegEncode img q' = .ok b ∧ sizeBudget < b.length) →
      ∃ b, qualityLoop c img q buf calls = (.ok b, calls ++ qs) ∧
        (qs = [] → b = buf) ∧ (∀ ql, qs.getLast? = some ql → c.jpegEncode img ql = .ok b) := by
  intro qs
  induction qs with
  | nil =>
    intro q buf calls hv _
    have hq : q ≤ 10 := by simpa [visits] using hv
    exact ⟨buf, by rw [qualityLoop_exit c img q buf calls hq]; simp, fun _ => rfl, by simp⟩
  | cons a rest ih =>
    intro q buf calls hv henc
    obtain ⟨hq, rfl, hv'⟩ := visits_cons q a rest hv
    obtain ⟨b, hb, hover⟩ := henc a (List.mem_cons_self _ _)
    obtain ⟨b', hloop, hnil, hlast⟩ := ih (a - 10) b (calls ++ [a]) hv'
      (fun t ht => henc t (List.mem_cons_of_mem _ ht))
    refine ⟨b', ?_, ?_, ?_⟩
    · rw [qualityLoop_over c img a buf calls b hq hb hover, hloop]
      simp
    · intro h
      cases h
    · intro ql hql
      cases rest with
      | nil =>
        have : ql = a := by simpa using hql.symm
        rw [this, hnil rfl]
        exact hb
      | cons r rs =>
        apply hlast
        simpa [List.getLast?_cons_cons] using hql

/-- Once the input is decoded and its format accepted, the function is the
encoding step applied to the transformed grid. -/
theorem process_decoded (c : Codecs) (base64Data : List Char) (options : ProcessingOptions)
    (raw : Bytes) (img : Image) (format : String)
    (h64 : c.base64Decode (stripHeader base64Data) = some raw)
    (hdec : c.imageDecode raw = .ok (img, format))
    (hfmt : allowedFormats (ToLower format) = true) :
    processImageFromBase64Log c base64Data options true =
      qualityLoop c (transform options img) 90 [] [] := by
  unfold processImageFromBase64Log
  simp [h64, hdec, hfmt]

/-- When the input decodes to an allowed format and every encoding of the
search is over the budget, the function returns the encoding made at quality
20 after calling the encoder at all eight qualities. -/
theorem process_exhausted (c : Codecs) (base64Data : List Char) (options : ProcessingOptions)
    (raw : Bytes) (img : Image) (format : String)
    (h64 : c.base64Decode (stripHeader base64Data) = some raw)
    (hdec : c.imageDecode raw = .ok (img, format))
    (hfmt : allowedFormats (ToLower format) = true)
    (hall : ∀ q ∈ searchQualities, ∃ b,
      c.jpegEncode (transform options img) q = .ok b ∧ sizeBudget < b.length) :
    ∃ b, processImageFromBase64 c base64Data options true = .ok b ∧
      c.jpegEncode (transform options img) 20 = .ok b ∧ sizeBudget < b.length ∧
      encoderCalls c base64Data options true = searchQualities := by
  have hlog := process_decoded c base64Data options raw img format h64 hdec hfmt
  obtain ⟨b, hloop, -, hlast⟩ := qualityLoop_exhaust c (transform options img)
    searchQualities 90 [] [] (by decide) hall
  have h20 := hlast 20 (by decide)
  obtain ⟨b', hb', hover⟩ := hall 20 (by decide)
  have hbb : b' = b := by
    rw [h20] at hb'
    cases hb'
    rfl
  subst hbb
  refine ⟨b', ?_, h20, hover, ?_⟩
  · unfold processImageFromBase64
    rw [hlog, hloop]
  · unfold encoderCalls
    rw [hlog, hloop]
    rfl

theorem oversizeEncode_over (img : Image) :
    ∀ q ∈ searchQualities, ∃ b,
      oversizeCodecs.jpegEncode img q = .ok b ∧ sizeBudget < b.length := by
  intro q _
  refine ⟨List.replicate (150000 + 1000 * q) 0, rfl, ?_⟩
  rw [List.length_replicate]
  unfold sizeBudget
  omega

/-! ## Claims about the quality search -/

/-- C1, at a failing input: with an encoder whose output exceeds 102400 bytes
at every quality from 90 down to 20, `processImageFromBase64` with
`optimizeSize=true` returns 170000 bytes and no error. -/
theorem oversize_bytes_returned :
    ∃ b, processImageFromBase64 oversizeCodecs "AQ==".data ⟨false, false⟩ true = .ok b ∧
      b.length = 170000 ∧ 100 * 1024 < b.length := by
  obtain ⟨b, hres, h20, hover, -⟩ := process_exhausted oversizeCodecs "AQ==".data
    ⟨false, false⟩ [1] blackSquare "png" (by decide) rfl (by decide) (oversizeEncode_over _)
  have h20' : oversizeCodecs.jpegEncode (transform ⟨false, false⟩ blackSquare) 20 =
      .ok (List.replicate (150000 + 1000 * 20) 0) := rfl
  have hb : b = List.replicate (150000 + 1000 * 20) 0 := by
    rw [h20'] at h20
    cases h20
    rfl
  refine ⟨b, hres, ?_, hover⟩
  rw [hb, List.length_replicate]

/-- C2, at a failing input: the encoding of the transformed grid is longer
than 102400 bytes at each of the qualities 90, 80, ..., 20 and the encoder
never fails, yet `processImageFromBase64` with `optimizeSize=true` returns
the encoding made at quality 20 instead of an error, after eight encoder
calls. -/
theorem exhausted_search_returns_last_encoding :
    (∀ q ∈ [90, 80, 70, 60, 50, 40, 30, 20], ∃ b,
      oversizeCodecs.jpegEncode (transform ⟨true, true⟩ wideGrid) q = .ok b ∧
        100 * 1024 < b.length) ∧
    (∃ b, processImageFromBase64 oversizeCodecs "data:image/jpeg;base64,Ag==".data
          ⟨true, true⟩ true = .ok b ∧
        oversizeCodecs.jpegEncode (transform ⟨true, true⟩ wideGrid) 20 = .ok b) ∧
    encoderCalls oversizeCodecs "data:image/jpeg;base64,Ag==".data ⟨true, true⟩ true =
      [90, 80, 70, 60, 50, 40, 30, 20] := by
  obtain ⟨b, hres, h20, -, hcalls⟩ := process_exhausted oversizeCodecs
    "data:image/jpeg;base64,Ag==".data ⟨true, true⟩ [2] wideGrid "jpeg"
    (by decide) rfl (by decide) (oversizeEncode_over _)
  exact ⟨oversizeEncode_over _, ⟨b, hres, h20⟩, hcalls⟩

/-- C3: when the input decodes to an allowed format, the encoder succeeds on
the transformed grid at every quality of 90, 80, ..., 20 and some of these
encodings is within 102400 bytes, `processImageFromBase64` with
`optimizeSize=true` returns the encoding at the largest such quality `q`; the
encoder is called at the qualities of the list 90, 80, ..., 20 that come
before `q`, in this order, and then at `q`, so only at qualities of this list
and at most 8 times. -/
theorem budget_search_returns_first_fit (c : Codecs) (base64Data : List Char)
    (options : ProcessingOptions) (raw : Bytes) (img : Image) (format : String)
    (h64 : c.base64Decode (stripHeader base64Data) = some raw)
    (hdec : c.imageDecode raw = .ok (img, format))
    (hfmt : allowedFormats (ToLower format) = true)
    (henc : ∀ q ∈ searchQualities, ∃ b, c.jpegEncode (transform options img) q = .ok b)
    (hfit : ∃ q ∈ searchQualities, ∀ b,
      c.jpegEncode (transform options img) q = .ok b → b.length ≤ 100 * 1024) :
    ∃ pre q post b,
      [90, 80, 70, 60, 50, 40, 30, 20] = pre ++ q :: post ∧
      c.jpegEncode (transform options img) q = .ok b ∧ b.length ≤ 100 * 1024 ∧
      (∀ q' ∈ [90, 80, 70, 60, 50, 40, 30, 20],
        (∃ b', c.jpegEncode (transform options img) q' = .ok b' ∧ b'.length ≤ 100 * 1024) →
          q' ≤ q) ∧
      processImageFromBase64 c base64Data options true = .ok b ∧
      encoderCalls c base64Data options true = pre ++ [q] ∧
      (encoderCalls c base64Data options true).length ≤ 8 ∧
      ∀ t ∈ encoderCalls c base64Data options true, t ∈ [90, 80, 70, 60, 50, 40, 30, 20] := by
  have hlog := process_decoded c base64Data options raw img format h64 hdec hfmt
  obtain ⟨pre, q, post, b, hsplit, hb, hlen, hpre, hloop⟩ :=
    qualityLoop_scan c (transform options img) searchQualities 90 [] [] (by decide) henc hfit
  have hsplit' : [90, 80, 70, 60, 50, 40, 30, 20] = pre ++ q :: post := hsplit
  have hcalls : encoderCalls c base64Data options true = pre ++ [q] := by
    unfold encoderCalls
    rw [hlog, hloop]
    simp
  have hpw : List.Pairwise (fun a b : Nat => a > b) (pre ++ q :: post) := by
    rw [← hsplit']
    decide
  obtain ⟨-, hqpost, -⟩ := List.pairwise_append.1 hpw
  refine ⟨pre, q, post, b, hsplit', hb, hlen, ?_, ?_, hcalls, ?_, ?_⟩
  · intro q' hq' hq'fit
    rw [hsplit'] at hq'
    obtain ⟨b', hb', hlen'⟩ := hq'fit
    rcases List.mem_append.1 hq' with hin | hin
    · have := hpre q' hin b' hb'
      unfold sizeBudget at this
      omega
    · rcases List.mem_cons.1 hin with rfl | hin'
      · exact le_refl _
      · exact le_of_lt ((List.pairwise_cons.1 hqpost).1 q' hin')
  · unfold processImageFromBase64
    rw [hlog, hloop]
  · rw [hcalls]
    have hl : (pre ++ q :: post).length = 8 := by rw [← hsplit']; rfl
    simp only [List.length_append, List.length_cons, List.length_nil] at hl ⊢
    omega
  · intro t ht
    rw [hcalls] at ht
    rw [hsplit']
    rcases List.mem_append.1 ht with hin | hin
    · exact List.mem_append_left _ hin
    · have : t = q := by simpa using hin
      rw [this]
      exact List.mem_append_right _ (List.mem_cons_self _ _)

/-- With the stepwise encoder the search stops at quality 50 after five
encoder calls. -/
theorem budget_search_returns_first_fit_witness :
    ∃ b, processImageFromBase64 stepCodecs "AQ==".data ⟨true, false⟩ true = .ok b ∧
      stepCodecs.jpegEncode (transform ⟨true, false⟩ blackSquare) 50 = .ok b ∧
      encoderCalls stepCodecs "AQ==".data ⟨true, false⟩ true = [90, 80, 70, 60, 50] := by
  have e50 : stepCodecs.jpegEncode (transform ⟨true, false⟩ blackSquare) 50 =
      .ok (List.replicate (2000 * 50) 0) := rfl
  obtain ⟨pre, q, post, b, hsplit, hb, hlen, hmax, hres, hcalls, -, -⟩ :=
    budget_search_returns_first_fit stepCodecs "AQ==".data ⟨true, false⟩ [1] blackSquare "png"
      (by decide) rfl (by decide)
      (fun q _ => ⟨List.replicate (2000 * q) 0, rfl⟩)
      ⟨50, by decide, fun b hb => by
        rw [e50] at hb
        cases hb
        rw [List.length_replicate]
        norm_num⟩
  have hq50 : 50 ≤ q :=
    hmax 50 (by decide) ⟨List.replicate (2000 * 50) 0, rfl, by rw [List.length_replicate]; norm_num⟩
  have hbq : b = List.replicate (2000 * q) 0 := by
    have e : stepCodecs.jpegEncode (transform ⟨true, false⟩ blackSquare) q =
        .ok (List.replicate (2000 * q) 0) := rfl
    rw [e] at hb
    cases hb
    rfl
  have hq : q = 50 := by
    have hqmem : q ∈ [90, 80, 70, 60, 50, 40, 30, 20] := by
      rw [hsplit]
      exact List.mem_append_right _ (List.mem_cons_self _ _)
    rw [hbq, List.length_replicate] at hlen
    simp only [List.mem_cons, List.mem_singleton, List.not_mem_nil, or_false] at hqmem
    omega
  subst hq
  have hpre : pre = [90, 80, 70, 60] := by
    have hlenpre : pre.length = 4 := by
      have hnd : List.Nodup (pre ++ 50 :: post) := by
        rw [← hsplit]; decide
      have hidx := congrArg (List.indexOf 50) hsplit
      have h50 : (50 : Nat) ∉ pre := fun hin =>
        (List.nodup_append.1 hnd).2.2 hin (List.mem_cons_self _ _)
      rw [List.indexOf_append_of_not_mem h50, List.indexOf_cons_self] at hidx
      have : List.indexOf 50 [90, 80, 70, 60, 50, 40, 30, 20] = 4 := by decide
      omega
    have := congrArg (List.take 4) hsplit
    rw [← hlenpre, List.take_left] at this
    rw [← this, hlenpre]
    rfl
  refine ⟨b, hres, ?_, ?_⟩
  · rw [hbq]
    exact e50
  · rw [hcalls, hpre]
    rfl

/-! ## Claims about the orchestration -/

theorem cropToSquare_Bounds (img : Image) :
    (cropToSquare img).Bounds =
      Rect 0 0 (if img.Bounds.Dy < img.Bounds.Dx then img.Bounds.Dy else img.Bounds.Dx)
        (if img.Bounds.Dy < img.Bounds.Dx then img.Bounds.Dy else img.Bounds.Dx) := by
  unfold cropToSquare
  simp only [Draw_Bounds]
  rfl

theorem transform_round (crop : Bool) (img : Image) :
    transform ⟨crop, true⟩ img = applyCircleMask (cropToSquare img) := by
  simp [transform]

/-- C6: for every decoded grid, the grid handed to the encoder under
`{crop=false, round=true}` and under `{crop=true, round=true}` is
`applyCircleMask (cropToSquare decoded)`; the grid the mask stage receives is
a square of side `min W H`; and for every input and either value of
`optimizeSize` the two option values give the same result and the same
encoder calls. -/
theorem round_implies_square_framing (c : Codecs) (base64Data : List Char)
    (optimizeSize : Bool) (img : Image)
    (hW : 0 ≤ img.Bounds.Dx) (hH : 0 ≤ img.Bounds.Dy) :
    transform ⟨false, true⟩ img = applyCircleMask (cropToSquare img) ∧
    transform ⟨true, true⟩ img = applyCircleMask (cropToSquare img) ∧
    ((cropToSquare img).Bounds.Dx = min img.Bounds.Dx img.Bounds.Dy ∧
      (cropToSquare img).Bounds.Dy = min img.Bounds.Dx img.Bounds.Dy) ∧
    ((transform ⟨false, true⟩ img).Bounds.Dx = min img.Bounds.Dx img.Bounds.Dy ∧
      (transform ⟨false, true⟩ img).Bounds.Dy = min img.Bounds.Dx img.Bounds.Dy) ∧
    processImageFromBase64 c base64Data ⟨false, true⟩ optimizeSize =
      processImageFromBase64 c base64Data ⟨true, true⟩ optimizeSize ∧
    encoderCalls c base64Data ⟨false, true⟩ optimizeSize =
      encoderCalls c base64Data ⟨true, true⟩ optimizeSize := by
  have hsize : (if img.Bounds.Dy < img.Bounds.Dx then img.Bounds.Dy else img.Bounds.Dx) =
      min img.Bounds.Dx img.Bounds.Dy := by
    by_cases h : img.Bounds.Dy < img.Bounds.Dx
    · rw [if_pos h]; omega
    · rw [if_neg h]; omega
  have hcB : (cropToSquare img).Bounds =
      ⟨⟨0, 0⟩, ⟨min img.Bounds.Dx img.Bounds.Dy, min img.Bounds.Dx img.Bounds.Dy⟩⟩ := by
    rw [cropToSquare_Bounds, hsize, Rect_square, if_pos (by omega)]
  have hsq : (cropToSquare img).Bounds.Dx = min img.Bounds.Dx img.Bounds.Dy ∧
      (cropToSquare img).Bounds.Dy = min img.Bounds.Dx img.Bounds.Dy := by
    rw [hcB]
    simp [Rectangle.Dx, Rectangle.Dy]
  have hlog : processImageFromBase64Log c base64Data ⟨false, true⟩ optimizeSize =
      processImageFromBase64Log c base64Data ⟨true, true⟩ optimizeSize := by
    unfold processImageFromBase64Log
    simp only [transform_round]
  refine ⟨transform_round false img, transform_round true img, hsq, ?_, ?_, ?_⟩
  · rw [transform_round, applyCircleMask_Bounds]
    exact hsq
  · unfold processImageFromBase64
    rw [hlog]
  · unfold encoderCalls
    rw [hlog]

/-- The 5-by-2 sample grid is framed to a 2-by-2 square under both option
values. -/
theorem round_implies_square_framing_witness :
    (0 ≤ wideGrid.Bounds.Dx ∧ 0 ≤ wideGrid.Bounds.Dy) ∧
    transform ⟨false, true⟩ wideGrid = applyCircleMask (cropToSquare wideGrid) ∧
    (transform ⟨false, true⟩ wideGrid).Bounds.Dx = 2 ∧
    (transform ⟨false, true⟩ wideGrid).Bounds.Dy = 2 ∧
    processImageFromBase64 stepCodecs "Ag==".data ⟨false, true⟩ true =
      processImageFromBase64 stepCodecs "Ag==".data ⟨true, true⟩ true := by
  have h := round_implies_square_framing stepCodecs "Ag==".data true wideGrid
    (by decide) (by decide)
  have e : min wideGrid.Bounds.Dx wideGrid.Bounds.Dy = 2 := by decide
  rw [e] at h
  exact ⟨⟨by decide, by decide⟩, h.1, h.2.2.2.1.1, h.2.2.2.1.2, h.2.2.2.2.1⟩

/-! ## The format check -/

theorem sniff_registered (jpegDecode pngDecode : Bytes → Except String Image) (r : Bytes) :
    sniff (registeredFormats jpegDecode pngDecode) r =
      if peekMatches jpegMagic r = true then some ⟨"jpeg", jpegMagic, jpegDecode⟩
      else if peekMatches pngMagic r = true then some ⟨"png", pngMagic, pngDecode⟩
      else none := by
  unfold sniff registeredFormats
  by_cases hj : peekMatches jpegMagic r = true
  · simp [List.find?, hj]
  · by_cases hp : peekMatches pngMagic r = true
    · simp [List.find?, hj, hp]
    · simp [List.find?, hj, hp]

/-- In the program `image.Decode` can only report the names `jpeg` and `png`,
both of which the allow-list accepts. -/
theorem Decode_format_allowed (jpegDecode pngDecode : Bytes → Except String Image)
    (r : Bytes) (img : Image) (format : String)
    (h : Decode (registeredFormats jpegDecode pngDecode) r = .ok (img, format)) :
    (format = "jpeg" ∨ format = "png") ∧ allowedFormats (ToLower format) = true := by
  unfold Decode at h
  rw [sniff_registered] at h
  by_cases hj : peekMatches jpegMagic r = true
  · rw [if_pos hj] at h
    simp only at h
    cases hd : jpegDecode r with
    | error e => rw [hd] at h; cases h
    | ok m =>
      rw [hd] at h
      cases h
      exact ⟨Or.inl rfl, by decide⟩
  · rw [if_neg hj] at h
    by_cases hp : peekMatches pngMagic r = true
    · rw [if_pos hp] at h
      simp only at h
      cases hd : pngDecode r with
      | error e => rw [hd] at h; cases h
      | ok m =>
        rw [hd] at h
        cases h
        exact ⟨Or.inr rfl, by decide⟩
    · rw [if_neg hp] at h
      cases h

/-- The search loop returns bytes or the wrapped encoder error. -/
theorem qualityLoop_result (c : Codecs) (img : Image) :
    ∀ (q : Nat) (buf : Bytes) (calls : List Nat),
      (∃ b, (qualityLoop c img q buf calls).1 = .ok b) ∨
        ∃ e, (qualityLoop c img q buf calls).1 = .error (.encodeFailed e) := by
  intro q
  induction q using Nat.strong_induction_on with
  | _ q ih =>
    intro buf calls
    rw [qualityLoop]
    by_cases hq : q > 10
    · simp only [hq, if_true]
      cases he : c.jpegEncode img q with
      | error e => exact Or.inr ⟨e, rfl⟩
      | ok b =>
        simp only
        by_cases hb : b.length ≤ 100 * 1024
        · rw [if_pos hb]
          exact Or.inl ⟨b, rfl⟩
        · rw [if_neg hb]
          exact ih (q - 10) (by omega) b (calls ++ [q])
    · rw [if_neg hq]
      exact Or.inl ⟨buf, rfl⟩

/-- The return of server.go:304 is unreachable: for no input, options or
flag does the program return the unsupported-format error. -/
theorem unsupportedFormat_unreachable (base64Decode : List Char → Option Bytes)
    (jpegDecode pngDecode : Bytes → Except String Image)
    (jpegEncode : Image → Nat → Except String Bytes)
    (base64Data : List Char) (options : ProcessingOptions) (optimizeSize : Bool)
    (format : String) :
    processImageFromBase64 (serverCodecs base64Decode jpegDecode pngDecode jpegEncode)
      base64Data options optimizeSize ≠ .error (.unsupportedFormat format) := by
  intro h
  unfold processImageFromBase64 processImageFromBase64Log serverCodecs at h
  simp only at h
  cases h64 : base64Decode (stripHeader base64Data) with
  | none => rw [h64] at h; cases h
  | some raw =>
    rw [h64] at h
    simp only at h
    cases hd : Decode (registeredFormats jpegDecode pngDecode) raw with
    | error e => rw [hd] at h; cases h
    | ok v =>
      obtain ⟨img, fmt⟩ := v
      have hal := (Decode_format_allowed jpegDecode pngDecode raw img fmt hd).2
      rw [hd] at h
      simp only [hal, Bool.not_true, Bool.false_eq_true, if_false] at h
      cases optimizeSize with
      | true =>
        simp only [if_true] at h
        rcases qualityLoop_result
          ⟨base64Decode, Decode (registeredFormats jpegDecode pngDecode), jpegEncode⟩
          (transform options img) 90 [] [] with ⟨b, hb⟩ | ⟨e, he⟩
        · rw [hb] at h; cases h
        · rw [he] at h; cases h
      | false =>
        simp only [Bool.false_eq_true, if_false] at h
        cases he : jpegEncode (transform options img) 85 with
        | error e => rw [he] at h; cases h
        | ok b => rw [he] at h; cases h

theorem stringsIndex_ge (s : List Char) (sep : Char) : -1 ≤ stringsIndex s sep := by
  induction s with
  | nil => simp [stringsIndex]
  | cons c cs ih =>
    unfold stringsIndex
    by_cases h : c = sep
    · simp [h]
    · simp only [h, if_false]
      split <;> omega

theorem stringsIndex_not_mem (s : List Char) (sep : Char) (h : sep ∉ s) :
    stringsIndex s sep = -1 := by
  induction s with
  | nil => rfl
  | cons c cs ih =>
    have hc : c ≠ sep := fun e => h (by rw [e]; exact List.mem_cons_self _ _)
    have hcs : sep ∉ cs := fun e => h (List.mem_cons_of_mem _ e)
    unfold stringsIndex
    simp [hc, ih hcs]

theorem stringsIndex_header (pre p : List Char) (sep : Char) (h : sep ∉ pre) :
    stringsIndex (pre ++ sep :: p) sep = pre.length := by
  induction pre with
  | nil => simp [stringsIndex]
  | cons c cs ih =>
    have hc : c ≠ sep := fun e => h (by rw [e]; exact List.mem_cons_self _ _)
    have hcs : sep ∉ cs := fun e => h (List.mem_cons_of_mem _ e)
    rw [List.cons_append]
    unfold stringsIndex
    rw [ih hcs]
    have hne : ¬ ((cs.length : Int) = -1) := by omega
    simp [hc, hne]

theorem stripHeader_header (pre p : List Char) (h : ',' ∉ pre) :
    stripHeader (pre ++ ',' :: p) = p := by
  unfold stripHeader
  simp only [stringsIndex_header pre p ',' h]
  have hne : ((pre.length : Int) ≠ -1) := by omega
  rw [if_pos hne]
  have e : ((pre.length : Int) + 1).toNat = pre.length + 1 := by omega
  rw [e]
  simp

theorem stripHeader_no_comma (p : List Char) (h : ',' ∉ p) : stripHeader p = p := by
  unfold stripHeader
  simp [stringsIndex_not_mem p ',' h]

/-- C8, as stated, fails: for the payload `","` the call with the header
`data:image/png;base64,` in front stops at the base64 decoding, while the
call without it drops the comma, decodes the empty text and stops at the
image decoding. -/
theorem header_strip_comma_payload :
    processImageFromBase64 stepCodecs ("data:image/png;base64,".data ++ ",".data)
        ⟨false, false⟩ false = .error .invalidBase64 ∧
    processImageFromBase64 stepCodecs ",".data ⟨false, false⟩ false =
        .error (.decodeFailed "image: unknown format") ∧
    processImageFromBase64 stepCodecs ("data:image/png;base64,".data ++ ",".data)
        ⟨false, false⟩ false ≠
      processImageFromBase64 stepCodecs ",".data ⟨false, false⟩ false := by
  have h1 : processImageFromBase64 stepCodecs ("data:image/png;base64,".data ++ ",".data)
      ⟨false, false⟩ false = .error .invalidBase64 := rfl
  have h2 : processImageFromBase64 stepCodecs ",".data ⟨false, false⟩ false =
      .error (.decodeFailed "image: unknown format") := rfl
  refine ⟨h1, h2, ?_⟩
  rw [h1, h2]
  intro h
  cases h

/-- C8, amended: for every payload `p` that contains no comma and every
header `pre ++ ","` whose only comma is its last character (so every header
`data:image/<subtype>;base64,`), `processImageFromBase64` returns the same
result, with the same encoder calls, on the header followed by `p` as on `p`
alone, for every options value and either value of `optimizeSize`. -/
theorem header_strip_same_result (c : Codecs) (pre p : List Char)
    (options : ProcessingOptions) (optimizeSize : Bool)
    (hpre : ',' ∉ pre) (hp : ',' ∉ p) :
    processImageFromBase64 c ((pre ++ [',']) ++ p) options optimizeSize =
      processImageFromBase64 c p options optimizeSize ∧
    encoderCalls c ((pre ++ [',']) ++ p) options optimizeSize =
      encoderCalls c p options optimizeSize := by
  have e : (pre ++ [',']) ++ p = pre ++ ',' :: p := by simp
  have hlog : processImageFromBase64Log c ((pre ++ [',']) ++ p) options optimizeSize =
      processImageFromBase64Log c p options optimizeSize := by
    unfold processImageFromBase64Log
    simp only [e, stripHeader_header pre p hpre, stripHeader_no_comma p hp]
  unfold processImageFromBase64 encoderCalls
  rw [hlog]
  exact ⟨rfl, rfl⟩

/-- The header `data:image/png;base64,` in front of a payload without a
comma. -/
theorem header_strip_same_result_witness :
    (',' ∉ "data:image/png;base64".data ∧ ',' ∉ "AQ==".data) ∧
    processImageFromBase64 stepCodecs (("data:image/png;base64".data ++ [',']) ++ "AQ==".data)
        ⟨true, true⟩ true =
      processImageFromBase64 stepCodecs "AQ==".data ⟨true, true⟩ true :=
  ⟨⟨by decide, by decide⟩,
    (header_strip_same_result stepCodecs "data:image/png;base64".data "AQ==".data
      ⟨true, true⟩ true (by decide) (by decide)).1⟩

end ADPPM
